import Mathlib

/-!
Verification development for `find_similar_pictures.py`.

The fingerprint fields are modelled as bit strings (`List Bool`), following
the data model (64-bit hash strings).  `calculate_similarity` compares two
hash strings position by position, exactly as the code
`sum(c1 != c2 for c1, c2 in zip(s1, s2))` does; the comparison is generic in the
element type, so the bit-string instantiation is faithful.  Floats are
modelled as exact rationals.
-/

-- ## Definitions (shallow embedding of the source)

/-- The fingerprint dict returned by `calculate_image_hash` (source lines
37-43): fields `phash`, `dhash`, `rotations` (a list of four hashes, for
0/90/180/270 degrees), `flipped_h`, `flipped_v`. -/
structure FP where
  phash : List Bool
  dhash : List Bool
  rotations : List (List Bool)
  flipped_h : List Bool
  flipped_v : List Bool
deriving DecidableEq

/-- Image paths (`str(image_path)` in the source). -/
abbrev ImgPath := String

/-- Model of `sum(c1 != c2 for c1, c2 in zip(s1, s2))`: the number of positions at
which the two zipped strings differ (`zip` truncates to the shorter string,
as in Python). -/
def hamm (s t : List Bool) : ℕ :=
  ((s.zip t).filter (fun p => p.1 != p.2)).length

/-- Model of the Python expression `min(l) if l else 0` on a list of naturals. -/
def pymin (l : List ℕ) : ℕ :=
  match l with
  | [] => 0
  | x :: xs => xs.foldl min x

/-- The `rotation_distances` list (source lines 55-59): the nested loops
`for rot1 in the rotations of hash1: for rot2 in the rotations of hash2`. -/
def rotationDistances (h1 h2 : FP) : List ℕ :=
  h1.rotations.flatMap (fun r1 => h2.rotations.map (fun r2 => hamm r1 r2))

/-- Model of `min_rotation_distance` (source line 60). -/
def minRotationDistance (h1 h2 : FP) : ℕ :=
  pymin (rotationDistances h1 h2)

/-- Model of `min_flip_distance` (source lines 63-65). -/
def minFlipDistance (h1 h2 : FP) : ℕ :=
  min (hamm h1.flipped_h h2.flipped_h) (hamm h1.flipped_v h2.flipped_v)

/-- Model of `calculate_similarity` (source lines 48-75): the weighted distance
`0.4 * phash + 0.3 * dhash + 0.2 * rotation + 0.1 * flip`. -/
def calculate_similarity (h1 h2 : FP) : ℚ :=
  0.4 * (hamm h1.phash h2.phash : ℚ) + 0.3 * (hamm h1.dhash h2.dhash : ℚ)
    + 0.2 * (minRotationDistance h1 h2 : ℚ) + 0.1 * (minFlipDistance h1 h2 : ℚ)

/-- Hamming distance as claim C2 words it: the count of differing bit
positions of two bit strings (indexing positions explicitly).  Used to
compare the bit-level reading of the claim with what the program computes
on the stored hexadecimal digests. -/
def hammingBits (s t : List Bool) : ℕ :=
  ((List.range s.length).filter (fun i => s.getD i false != t.getD i false)).length

/-- Python dict assignment `d[k] = v` on an insertion-ordered dict: replaces
the value in place when the key is present, otherwise appends
(the assignment of the group to the phash key of similar_groups, source line 113). -/
def dictInsert (k : List Bool) (v : List ImgPath) :
    List (List Bool × List ImgPath) → List (List Bool × List ImgPath)
  | [] => [(k, v)]
  | kv :: rest => if kv.1 = k then (k, v) :: rest else kv :: dictInsert k v rest

/-- The inner loop of `find_similar_images` (source lines 104-109): scan all
entries; skip `path2` equal to `path1` or already processed; append a match
to the group and mark it processed.  Returns the grown group and the grown
processed set (a Python `set`, modelled by a list queried by membership). -/
def innerLoop (p1 : ImgPath) (h1 : FP) (t : ℚ) :
    List (ImgPath × FP) → List ImgPath → List ImgPath → List ImgPath × List ImgPath
  | [], group, processed => (group, processed)
  | e :: rest, group, processed =>
    if p1 ≠ e.1 ∧ e.1 ∉ processed then
      if calculate_similarity h1 e.2 ≤ t then
        innerLoop p1 h1 t rest (group ++ [e.1]) (e.1 :: processed)
      else innerLoop p1 h1 t rest group processed
    else innerLoop p1 h1 t rest group processed

/-- The outer loop of `find_similar_images` (source lines 99-113): skip a
processed `path1`; otherwise run the inner scan starting from `[path1]`; a
group with more than one member marks `path1` processed and is stored under
the key given by the phash field of hash1. -/
def outerLoop (entries : List (ImgPath × FP)) (t : ℚ) :
    List (ImgPath × FP) → List ImgPath → List (List Bool × List ImgPath) →
      List (List Bool × List ImgPath)
  | [], _, sg => sg
  | e :: rest, processed, sg =>
    if e.1 ∈ processed then outerLoop entries t rest processed sg
    else
      let r := innerLoop e.1 e.2 t entries [e.1] processed
      if 1 < r.1.length then
        outerLoop entries t rest (e.1 :: r.2) (dictInsert e.2.phash r.1 sg)
      else outerLoop entries t rest r.2 sg

/-- The grouping phase of `find_similar_images` (source lines 97-115),
taking the ordered `hash_dict` as an explicit list of (path, fingerprint)
pairs. -/
def find_similar_images (entries : List (ImgPath × FP)) (t : ℚ) :
    List (List Bool × List ImgPath) :=
  outerLoop entries t entries [] []

/-- Modelled from the spec (section 4.3, step 3): the members joining the
candidate group of an unassigned `p1` are all other unassigned paths within
the threshold, in iteration order. -/
def specGroupMembers (entries : List (ImgPath × FP)) (t : ℚ) (p1 : ImgPath)
    (h1 : FP) (assigned : List ImgPath) : List ImgPath :=
  (entries.filter (fun e =>
    decide (p1 ≠ e.1) && decide (e.1 ∉ assigned) &&
      decide (calculate_similarity h1 e.2 ≤ t))).map Prod.fst

/-- Modelled from the spec (section 4.3): greedy clustering as the
specification words it — skip assigned paths, gather the unassigned paths
within the threshold, emit a group only when it has more than one member,
keyed by the perceptual hash of the representative. -/
def specClusterAux (entries : List (ImgPath × FP)) (t : ℚ) :
    List (ImgPath × FP) → List ImgPath → List (List Bool × List ImgPath) →
      List (List Bool × List ImgPath)
  | [], _, sg => sg
  | e :: rest, assigned, sg =>
    if e.1 ∈ assigned then specClusterAux entries t rest assigned sg
    else
      let members := specGroupMembers entries t e.1 e.2 assigned
      if members = [] then specClusterAux entries t rest assigned sg
      else
        specClusterAux entries t rest (e.1 :: (members ++ assigned))
          (dictInsert e.2.phash (e.1 :: members) sg)

/-- Clustering as described by the specification. -/
def specCluster (entries : List (ImgPath × FP)) (t : ℚ) :
    List (List Bool × List ImgPath) :=
  specClusterAux entries t entries [] []

/-- Whether two paths appear together in some group of a clustering output. -/
def sameGroup (out : List (List Bool × List ImgPath)) (p q : ImgPath) : Bool :=
  out.any (fun g => decide (p ∈ g.2) && decide (q ∈ g.2))

/-- The `ImageViewer` state that the deletion and selection logic reads:
the ordered groups (`list(similar_groups.items())`), the materialized
checkboxes as (checked, path) pairs, and the pagination bookkeeping. -/
structure ImageViewer where
  similar_groups : List (List Bool × List ImgPath)
  checkboxes : List (Bool × ImgPath)
  current_page : ℕ
  groups_per_page : ℕ
  loaded_groups : List ℕ

/-- The paths `delete_all_selected` collects (source lines 303-306): every
member except the first of every group, regardless of checkbox state. -/
def toDelete (groups : List (List Bool × List ImgPath)) : List ImgPath :=
  groups.flatMap (fun g => g.2.drop 1)

/-- The deletion loop (source lines 318-323): each path is attempted in
order; `os.remove` success is the external `removeOk`; a failure is caught,
logged, and the loop continues.  Returns (attempted paths, logged failures). -/
def deleteLoop (removeOk : ImgPath → Bool) :
    List ImgPath → List ImgPath × List ImgPath
  | [] => ([], [])
  | p :: rest =>
    let r := deleteLoop removeOk rest
    (p :: r.1, if removeOk p then r.2 else p :: r.2)

/-- The group recomputation (source lines 326-330): every group with at
least one member is kept with only its first member. -/
def updatedGroups (groups : List (List Bool × List ImgPath)) :
    List (List Bool × List ImgPath) :=
  (groups.filter (fun g => !g.2.isEmpty)).map (fun g => (g.1, g.2.take 1))

/-- The outcome of a confirmed `delete_all_selected` call. -/
structure DeleteOutcome where
  attempted : List ImgPath
  failures : List ImgPath
  groups_after : List (List Bool × List ImgPath)
  terminal : Bool
  page_reset : Bool
deriving DecidableEq

/-- Model of `delete_all_selected` (source lines 300-344), on the path where the
operator confirms the dialog.  `removeOk` tells which `os.remove` calls
succeed; the early return fires when there is nothing to delete; otherwise
every collected path is attempted, the groups are recomputed to their first
member, singleton groups are dropped, and the viewer either closes
(terminal) or resets pagination. -/
def delete_all_selected (v : ImageViewer) (removeOk : ImgPath → Bool) :
    DeleteOutcome :=
  let td := toDelete v.similar_groups
  if td.isEmpty then
    { attempted := [], failures := [], groups_after := v.similar_groups,
      terminal := false, page_reset := false }
  else
    let r := deleteLoop removeOk td
    let newGroups := (updatedGroups v.similar_groups).filter
      (fun g => decide (1 < g.2.length))
    if newGroups.isEmpty then
      { attempted := r.1, failures := r.2, groups_after := newGroups,
        terminal := true, page_reset := false }
    else
      { attempted := r.1, failures := r.2, groups_after := newGroups,
        terminal := false, page_reset := true }

/-- The current selection set of the session: the checked materialized
checkboxes, plus — mirroring the accounting of `update_selected_count`
(source lines 361-376) — all members except the first of every group from
the next page on that is not yet loaded. -/
def selectedPaths (v : ImageViewer) : List ImgPath :=
  (v.checkboxes.filter (fun cb => cb.1)).map (fun cb => cb.2)
    ++ ((List.range v.similar_groups.length).filter (fun idx =>
          decide ((v.current_page + 1) * v.groups_per_page ≤ idx) &&
            !(v.loaded_groups.contains idx))).flatMap
        (fun idx => (v.similar_groups.getD idx ([], [])).2.drop 1)

/-- Model of `update_progress` (source lines 583-588): when the dialog was cancelled
the callback returns without touching the bar; otherwise it sets the
percentage.  Purely observational. -/
def update_progress (wasCanceled : Bool) (current total barValue : ℕ) : ℕ :=
  if wasCanceled then barValue else current * 100 / total

/-- The fingerprinting loop (source lines 89-95): for each file the callback
runs first (observing the cancellation flag at that call, `cSig i`), then
the file is hashed; a `none` result (unreadable image) is skipped.  The loop
itself never consults the cancellation flag. -/
def scanAux (hashOf : ImgPath → Option FP) (cSig : ℕ → Bool) (total : ℕ) :
    List ImgPath → ℕ → ℕ → List (ImgPath × FP) → List (ImgPath × FP) × ℕ
  | [], _, barValue, acc => (acc, barValue)
  | f :: rest, i, barValue, acc =>
    let b2 := update_progress (cSig i) i total barValue
    match hashOf f with
    | some h => scanAux hashOf cSig total rest (i + 1) b2 (acc ++ [(f, h)])
    | none => scanAux hashOf cSig total rest (i + 1) b2 acc

/-- The scan phase: hash every discovered file, reporting progress.  Returns
the ordered `hash_dict` and the final progress-bar value. -/
def scanPhase (hashOf : ImgPath → Option FP) (cSig : ℕ → Bool)
    (files : List ImgPath) : List (ImgPath × FP) × ℕ :=
  scanAux hashOf cSig files.length files 0 0 []

/-- The external collaborators of `calculate_image_hash`: the imagehash
algorithms and the PIL rotation/flip operations, abstract over the decoded
image type. -/
structure ImageOps (Img : Type) where
  phashF : Img → List Bool
  dhashF : Img → List Bool
  ahashF : Img → List Bool
  rotate : Img → ℕ → Img
  flipLR : Img → Img
  flipTB : Img → Img

/-- Model of `calculate_image_hash` (source lines 14-46) on a decodable image: the
perceptual and difference hashes of the image, the average hashes of its
four rotations, and the average hashes of its two mirror images. -/
def calculate_image_hash {Img : Type} (ops : ImageOps Img) (img : Img) : FP :=
  { phash := ops.phashF img
    dhash := ops.dhashF img
    rotations := [ops.ahashF img, ops.ahashF (ops.rotate img 90),
      ops.ahashF (ops.rotate img 180), ops.ahashF (ops.rotate img 270)]
    flipped_h := ops.ahashF (ops.flipLR img)
    flipped_v := ops.ahashF (ops.flipTB img) }

/-- The condition under which the inner loop adds `e` to the group of
`p1`. -/
def innerCond (p1 : ImgPath) (h1 : FP) (t : ℚ) (pr : List ImgPath)
    (e : ImgPath × FP) : Bool :=
  decide (p1 ≠ e.1) && decide (e.1 ∉ pr) && decide (calculate_similarity h1 e.2 ≤ t)

/-- The all-zero 64-bit string. -/
def z64 : List Bool := List.replicate 64 false

/-- The all-one 64-bit string. -/
def o64 : List Bool := List.replicate 64 true

/-- A 64-bit string with ones exactly on positions `[lo, hi)`. -/
def seg64 (lo hi : ℕ) : List Bool :=
  (List.range 64).map (fun i => decide (lo ≤ i ∧ i < hi))

/-- A 64-bit string with a single one, in position 0. -/
def o1 : List Bool := true :: List.replicate 63 false

/-- A fingerprint whose hashes are all zero. -/
def fpZ : FP := ⟨z64, z64, [z64, z64, z64, z64], z64, z64⟩

def pa : ImgPath := "a"

def pb : ImgPath := "b"

def pc : ImgPath := "c"

def pd : ImgPath := "d"

/-- Fingerprint differing from `fpZ` in 10 perceptual-hash bits
(weighted distance to `fpZ`: `0.4 * 10 = 4`). -/
def fpA4 : FP := ⟨seg64 0 10, z64, [z64, z64, z64, z64], z64, z64⟩

/-- Fingerprint differing from `fpZ` in 5 perceptual-hash bits (weighted
distance to `fpZ`: `0.4 * 5 = 2`) and from `fpA4` in 15 (distance `6`). -/
def fpC4 : FP := ⟨seg64 10 15, z64, [z64, z64, z64, z64], z64, z64⟩

/-- Threshold-monotonicity scenario: `d(a,b) = 4`, `d(b,c) = 2`,
`d(a,c) = 6`. -/
def entriesC4 : List (ImgPath × FP) := [(pa, fpA4), (pb, fpZ), (pc, fpC4)]

/-- A fingerprint that shares the perceptual hash of `fpZ` but is maximally far on the
other channels (weighted distance to `fpZ`:
`0.3 * 64 + 0.2 * 64 + 0.1 * 64 = 38.4`). -/
def fpQ : FP := ⟨z64, o64, [o64, o64, o64, o64], o64, o64⟩

/-- Like `fpQ` but with a distinct perceptual hash. -/
def fpQ2 : FP := ⟨o64, o64, [o64, o64, o64, o64], o64, o64⟩

/-- Two similarity pairs whose representatives share a perceptual hash. -/
def entriesX : List (ImgPath × FP) := [(pa, fpZ), (pb, fpZ), (pc, fpQ), (pd, fpQ)]

/-- The same two pairs with distinct representative perceptual hashes. -/
def entriesY : List (ImgPath × FP) := [(pa, fpZ), (pb, fpZ), (pc, fpQ2), (pd, fpQ2)]

/-- A review session holding one group of two images, both checkboxes
materialized and unchecked by the operator. -/
def vA : ImageViewer :=
  { similar_groups := [(z64, [pa, pb])], checkboxes := [(false, pa), (false, pb)],
    current_page := 0, groups_per_page := 5, loaded_groups := [0] }

/-- A review session holding one group of three images, all checkboxes
materialized and unchecked by the operator. -/
def vB : ImageViewer :=
  { similar_groups := [(z64, [pa, pb, pc])],
    checkboxes := [(false, pa), (false, pb), (false, pc)],
    current_page := 0, groups_per_page := 5, loaded_groups := [0] }

def pf1 : ImgPath := "f1"

def pf2 : ImgPath := "f2"

def pf3 : ImgPath := "f3"

def filesEx : List ImgPath := [pf1, pf2, pf3]

/-- Concrete collaborators for `calculate_image_hash`: images are
quarter-turn states `0..3`, rotation adds quarter turns, the average hash
is constant (so a rotated copy has exactly the same orientation hashes,
cyclically), while the perceptual hash distinguishes the upright state from
the rotated ones — as the real frequency-domain hash does. -/
def exOps : ImageOps ℕ :=
  { phashF := fun i => if i % 4 = 0 then z64 else o1
    dhashF := fun _ => z64
    ahashF := fun _ => z64
    rotate := fun i d => (i + d / 90) % 4
    flipLR := fun i => i
    flipTB := fun i => i }

/-- The weighted distance scaled by 10, as a natural number. -/
def simScaled (h1 h2 : FP) : ℕ :=
  4 * hamm h1.phash h2.phash + 3 * hamm h1.dhash h2.dhash
    + 2 * minRotationDistance h1 h2 + minFlipDistance h1 h2

/-- The fingerprint dict as the program actually stores it: every field is
the hexadecimal digest `str(imagehash...)` of a 64-bit hash — a string of
16 characters, one per nibble (source lines 27-43 wrap every hash in
`str`).  `calculate_similarity` is element-generic, so this is the same
source function at its runtime argument type. -/
structure FPstr where
  phash : List Char
  dhash : List Char
  rotations : List (List Char)
  flipped_h : List Char
  flipped_v : List Char
deriving DecidableEq

/-- Model of `sum(c1 != c2 for c1, c2 in zip(s1, s2))` on the stored hash
strings: the number of character positions at which the two zipped digests
differ. -/
def hammChar (s t : List Char) : ℕ :=
  ((s.zip t).filter (fun p => p.1 != p.2)).length

/-- Model of the `rotation_distances` list (source lines 55-59) on stored
digests. -/
def rotationDistancesHex (h1 h2 : FPstr) : List ℕ :=
  h1.rotations.flatMap (fun r1 => h2.rotations.map (fun r2 => hammChar r1 r2))

/-- Model of `min_rotation_distance` (source line 60) on stored digests. -/
def minRotationDistanceHex (h1 h2 : FPstr) : ℕ :=
  pymin (rotationDistancesHex h1 h2)

/-- Model of `min_flip_distance` (source lines 63-65) on stored digests. -/
def minFlipDistanceHex (h1 h2 : FPstr) : ℕ :=
  min (hammChar h1.flipped_h h2.flipped_h) (hammChar h1.flipped_v h2.flipped_v)

/-- Model of `calculate_similarity` (source lines 48-75) applied to what
`calculate_image_hash` actually stores: 16-character hexadecimal digests. -/
def calculate_similarity_hex (h1 h2 : FPstr) : ℚ :=
  0.4 * (hammChar h1.phash h2.phash : ℚ) + 0.3 * (hammChar h1.dhash h2.dhash : ℚ)
    + 0.2 * (minRotationDistanceHex h1 h2 : ℚ) + 0.1 * (minFlipDistanceHex h1 h2 : ℚ)

/-- Hamming distance over character positions of two digests, indexing the
positions explicitly. -/
def hammingChars (s t : List Char) : ℕ :=
  ((List.range s.length).filter (fun i => s.getD i '0' != t.getD i '0')).length

/-- The stored-digest invariant: every hash string of a fingerprint is a
16-character digest (of a 64-bit hash), and there are exactly four
orientation hashes. -/
def wellFormedFPhex (a : FPstr) : Prop :=
  a.phash.length = 16 ∧ a.dhash.length = 16 ∧ a.flipped_h.length = 16 ∧
    a.flipped_v.length = 16 ∧ a.rotations.length = 4 ∧
    ∀ r ∈ a.rotations, r.length = 16

instance : DecidablePred wellFormedFPhex := fun a => by
  unfold wellFormedFPhex; infer_instance

/-- The weighted stored-digest distance scaled by 10, as a natural number. -/
def simScaledHex (h1 h2 : FPstr) : ℕ :=
  4 * hammChar h1.phash h2.phash + 3 * hammChar h1.dhash h2.dhash
    + 2 * minRotationDistanceHex h1 h2 + minFlipDistanceHex h1 h2

/-- The hexadecimal character of a nibble value. -/
def hexOfNat (n : ℕ) : Char :=
  (("0123456789abcdef").toList).getD n '0'

/-- Modelled from the spec: the external `str(imagehash...)` digest format
that the source stores (lines 27-43) — the 64-bit hash rendered as 16
hexadecimal characters, one per group of four bits, most significant bit of
the nibble first. -/
def hexStr : List Bool → List Char
  | b3 :: b2 :: b1 :: b0 :: rest =>
    hexOfNat ((if b3 then 8 else 0) + (if b2 then 4 else 0) +
      (if b1 then 2 else 0) + (if b0 then 1 else 0)) :: hexStr rest
  | _ => []

/-- The stored fingerprint of the all-zero 64-bit hashes. -/
def fpHexA : FPstr :=
  ⟨hexStr z64, hexStr z64, [hexStr z64, hexStr z64, hexStr z64, hexStr z64],
    hexStr z64, hexStr z64⟩

/-- Like `fpHexA`, but the perceptual hash is the digest of the 64-bit
string with ones in bit positions 2 and 3 — two bits away from the all-zero
hash, yet only one character away in the stored digest. -/
def fpHexB : FPstr :=
  ⟨hexStr (seg64 2 4), hexStr z64, [hexStr z64, hexStr z64, hexStr z64, hexStr z64],
    hexStr z64, hexStr z64⟩

/-- A review session holding one group of three images with a non-empty,
non-default selection: only the second image is checked. -/
def vC : ImageViewer :=
  { similar_groups := [(z64, [pa, pb, pc])],
    checkboxes := [(false, pa), (true, pb), (false, pc)],
    current_page := 0, groups_per_page := 5, loaded_groups := [0] }

-- ## Theorems

theorem hamm_self (s : List Bool) : hamm s s = 0 := by
  induction s with
  | nil => rfl
  | cons x xs ih => simpa [hamm, List.zip_cons_cons, List.filter] using ih

theorem hamm_comm (s t : List Bool) : hamm s t = hamm t s := by
  induction s generalizing t with
  | nil => cases t <;> rfl
  | cons x xs ih =>
    cases t with
    | nil => rfl
    | cons y ys =>
      simp only [hamm, List.zip_cons_cons, List.filter]
      rcases h : (x != y) with _ | _
      · have h2 : (y != x) = false := by
          cases x <;> cases y <;> simp_all
        simp [h2]
        simpa [hamm] using ih ys
      · have h2 : (y != x) = true := by
          cases x <;> cases y <;> simp_all
        simp [h2]
        simpa [hamm] using ih ys

theorem foldl_min_le_init (l : List ℕ) : ∀ a : ℕ, l.foldl min a ≤ a := by
  induction l with
  | nil => intro a; simp
  | cons x xs ih =>
    intro a
    calc (x :: xs).foldl min a = xs.foldl min (min a x) := rfl
    _ ≤ min a x := ih (min a x)
    _ ≤ a := Nat.min_le_left a x

theorem pymin_le (l : List ℕ) : ∀ x ∈ l, pymin l ≤ x := by
  cases l with
  | nil => intro x hx; cases hx
  | cons a as =>
    suffices h : ∀ (b : ℕ), ∀ x, x = b ∨ x ∈ as → as.foldl min b ≤ x by
      intro x hx
      exact h a x (by simpa using hx)
    induction as with
    | nil =>
      intro b x hx
      rcases hx with h1 | h1
      · simpa [h1] using Nat.le_refl b
      · cases h1
    | cons c cs ih =>
      intro b x hx
      rcases hx with h1 | h1
      · subst h1
        calc (c :: cs).foldl min x = cs.foldl min (min x c) := rfl
        _ ≤ min x c := foldl_min_le_init cs (min x c)
        _ ≤ x := Nat.min_le_left x c
      · rcases (List.mem_cons.mp h1) with h2 | h2
        · subst h2
          calc (x :: cs).foldl min b = cs.foldl min (min b x) := rfl
          _ ≤ min b x := foldl_min_le_init cs (min b x)
          _ ≤ x := Nat.min_le_right b x
        · exact ih (min b c) x (Or.inr h2)

theorem foldl_min_mem (l : List ℕ) : ∀ b : ℕ, l.foldl min b = b ∨ l.foldl min b ∈ l := by
  induction l with
  | nil => intro b; exact Or.inl rfl
  | cons c cs ih =>
    intro b
    have hstep : (c :: cs).foldl min b = cs.foldl min (min b c) := rfl
    rcases ih (min b c) with h1 | h1
    · rcases Nat.le_total b c with hbc | hcb
      · exact Or.inl (by rw [hstep, h1, Nat.min_eq_left hbc])
      · refine Or.inr ?_
        rw [hstep, h1, Nat.min_eq_right hcb]
        exact List.mem_cons_self c cs
    · exact Or.inr (by rw [hstep]; exact List.mem_cons_of_mem c h1)

theorem pymin_mem (l : List ℕ) (h : l ≠ []) : pymin l ∈ l := by
  cases l with
  | nil => exact absurd rfl h
  | cons a as =>
    rcases foldl_min_mem as a with h1 | h1
    · simp [pymin, h1]
    · exact List.mem_cons_of_mem a (by simpa [pymin] using h1)

theorem pymin_zero_of_mem {l : List ℕ} (h : 0 ∈ l) : pymin l = 0 :=
  Nat.le_zero.mp (pymin_le l 0 h)

theorem pymin_congr {l1 l2 : List ℕ} (h : ∀ x, x ∈ l1 ↔ x ∈ l2) :
    pymin l1 = pymin l2 := by
  by_cases h1 : l1 = []
  · by_cases h2 : l2 = []
    · rw [h1, h2]
    · exfalso
      obtain ⟨b, hb⟩ := List.exists_mem_of_ne_nil l2 h2
      have : b ∈ l1 := (h b).mpr hb
      simp [h1] at this
  · by_cases h2 : l2 = []
    · exfalso
      obtain ⟨a, ha⟩ := List.exists_mem_of_ne_nil l1 h1
      have : a ∈ l2 := (h a).mp ha
      simp [h2] at this
    · have hm1 : pymin l1 ∈ l2 := (h _).mp (pymin_mem l1 h1)
      have hm2 : pymin l2 ∈ l1 := (h _).mpr (pymin_mem l2 h2)
      exact Nat.le_antisymm (pymin_le l1 _ hm2) (pymin_le l2 _ hm1)

theorem mem_rotationDistances {h1 h2 : FP} {x : ℕ} :
    x ∈ rotationDistances h1 h2 ↔
      ∃ r1 ∈ h1.rotations, ∃ r2 ∈ h2.rotations, x = hamm r1 r2 := by
  simp only [rotationDistances, List.mem_flatMap, List.mem_map]
  constructor
  · rintro ⟨r1, hr1, r2, hr2, hx⟩
    exact ⟨r1, hr1, r2, hr2, hx.symm⟩
  · rintro ⟨r1, hr1, r2, hr2, hx⟩
    exact ⟨r1, hr1, r2, hr2, hx.symm⟩

theorem specGroupMembers_eq_filter (entries : List (ImgPath × FP)) (t : ℚ)
    (p1 : ImgPath) (h1 : FP) (asg : List ImgPath) :
    specGroupMembers entries t p1 h1 asg =
      (entries.filter (innerCond p1 h1 t asg)).map Prod.fst := rfl

/-- On a scan list with no repeated paths, the inner loop appends to the
group exactly the paths passing `innerCond` for the processed set it started
from, in scan order, and pushes them (reversed) onto the processed set. -/
theorem innerLoop_eq (p1 : ImgPath) (h1 : FP) (t : ℚ) :
    ∀ (L : List (ImgPath × FP)) (g pr : List ImgPath),
      (L.map Prod.fst).Nodup →
      innerLoop p1 h1 t L g pr =
        (g ++ (L.filter (innerCond p1 h1 t pr)).map Prod.fst,
          ((L.filter (innerCond p1 h1 t pr)).map Prod.fst).reverse ++ pr) := by
  intro L
  induction L with
  | nil => intro g pr _; simp [innerLoop]
  | cons e rest ih =>
    intro g pr hnd
    rw [List.map_cons, List.nodup_cons] at hnd
    obtain ⟨he, hnd2⟩ := hnd
    by_cases hc1 : p1 ≠ e.1 ∧ e.1 ∉ pr
    · by_cases hc2 : calculate_similarity h1 e.2 ≤ t
      · have hcond : innerCond p1 h1 t pr e = true := by
          simp [innerCond, hc1.1, hc1.2, hc2]
        have hfilter : rest.filter (innerCond p1 h1 t (e.1 :: pr)) =
            rest.filter (innerCond p1 h1 t pr) := by
          apply List.filter_congr
          intro x hx
          have hxe : x.1 ≠ e.1 := by
            intro hcontra
            exact he (hcontra ▸ List.mem_map_of_mem Prod.fst hx)
          simp [innerCond, hxe]
        rw [innerLoop, if_pos hc1, if_pos hc2, ih (g ++ [e.1]) (e.1 :: pr) hnd2,
          hfilter, List.filter_cons_of_pos hcond]
        simp [List.append_assoc]
      · have hcond : innerCond p1 h1 t pr e = false := by
          simp [innerCond, hc2]
        rw [innerLoop, if_pos hc1, if_neg hc2, ih g pr hnd2,
          List.filter_cons_of_neg (by simp [hcond])]
    · have hcond : innerCond p1 h1 t pr e = false := by
        rcases not_and_or.mp hc1 with h | h
        · simp [innerCond, not_not.mp h]
        · simp [innerCond, not_not.mp h]
      rw [innerLoop, if_neg hc1, ih g pr hnd2,
        List.filter_cons_of_neg (by simp [hcond])]

/-- The outer loop of the code and the clustering of the specification agree whenever
their processed/assigned sets agree in membership (the scanned `entries`
carry no repeated path, as the keys of a Python dict). -/
theorem outerLoop_eq_specAux (entries : List (ImgPath × FP)) (t : ℚ)
    (hnd : (entries.map Prod.fst).Nodup) :
    ∀ (L : List (ImgPath × FP)) (pr asg : List ImgPath)
      (sg : List (List Bool × List ImgPath)),
      (∀ p, p ∈ pr ↔ p ∈ asg) →
      outerLoop entries t L pr sg = specClusterAux entries t L asg sg := by
  intro L
  induction L with
  | nil => intro pr asg sg _; rfl
  | cons e rest ih =>
    intro pr asg sg hiff
    by_cases hmem : e.1 ∈ pr
    · have hmem2 : e.1 ∈ asg := (hiff _).mp hmem
      rw [outerLoop, specClusterAux, if_pos hmem, if_pos hmem2]
      exact ih pr asg sg hiff
    · have hmem2 : e.1 ∉ asg := fun h => hmem ((hiff _).mpr h)
      have hM : (entries.filter (innerCond e.1 e.2 t pr)).map Prod.fst =
          specGroupMembers entries t e.1 e.2 asg := by
        rw [specGroupMembers_eq_filter]
        congr 1
        apply List.filter_congr
        intro x _
        have : (x.1 ∉ pr) = (x.1 ∉ asg) := by
          simp only [hiff]
        simp only [innerCond, this]
      rw [outerLoop, specClusterAux, if_neg hmem, if_neg hmem2,
        innerLoop_eq e.1 e.2 t entries [e.1] pr hnd]
      simp only [hM]
      by_cases hnil : specGroupMembers entries t e.1 e.2 asg = []
      · rw [if_pos hnil]
        have hlen : ¬ 1 < (([e.1] ++ specGroupMembers entries t e.1 e.2 asg).length) := by
          simp [hnil]
        rw [if_neg (by simpa [hnil] using hlen)]
        simp only [hnil, List.reverse_nil, List.nil_append]
        exact ih pr asg sg hiff
      · rw [if_neg hnil]
        have hlen : 1 < (([e.1] ++ specGroupMembers entries t e.1 e.2 asg).length) := by
          cases hM2 : specGroupMembers entries t e.1 e.2 asg with
          | nil => exact absurd hM2 hnil
          | cons m ms => simp
        rw [if_pos (by simpa using hlen)]
        have hiff2 : ∀ p, p ∈ e.1 ::
            ((specGroupMembers entries t e.1 e.2 asg).reverse ++ pr) ↔
            p ∈ e.1 :: (specGroupMembers entries t e.1 e.2 asg ++ asg) := by
          intro p
          simp [hiff]
        have hgrp : [e.1] ++ specGroupMembers entries t e.1 e.2 asg =
            e.1 :: specGroupMembers entries t e.1 e.2 asg := rfl
        rw [hgrp]
        exact ih _ _ _ hiff2

theorem calculate_similarity_eq_simScaled (h1 h2 : FP) :
    calculate_similarity h1 h2 = (simScaled h1 h2 : ℚ) / 10 := by
  unfold calculate_similarity simScaled
  push_cast
  ring

theorem sim_le_iff (h1 h2 : FP) (t : ℚ) :
    calculate_similarity h1 h2 ≤ t ↔ (simScaled h1 h2 : ℚ) ≤ 10 * t := by
  rw [calculate_similarity_eq_simScaled, div_le_iff (by norm_num : (0:ℚ) < 10)]
  constructor
  · intro h; linarith
  · intro h; linarith

theorem hammChar_cons (x y : Char) (s t : List Char) :
    hammChar (x :: s) (y :: t) = (if x = y then 0 else 1) + hammChar s t := by
  simp only [hammChar, List.zip_cons_cons, List.filter_cons]
  by_cases h : x = y
  · simp [h]
  · have hb : (x != y) = true := bne_iff_ne.mpr h
    simp [h, hb, Nat.add_comm]

theorem hammingChars_cons (x y : Char) (s t : List Char) :
    hammingChars (x :: s) (y :: t) = (if x = y then 0 else 1) + hammingChars s t := by
  have hfc : List.filter
        ((fun i => (x :: s).getD i '0' != (y :: t).getD i '0') ∘ Nat.succ)
        (List.range s.length)
      = List.filter (fun i => s.getD i '0' != t.getD i '0') (List.range s.length) := by
    apply List.filter_congr
    intro i _
    simp
  simp only [hammingChars, List.length_cons, List.range_succ_eq_map, List.filter_cons,
    List.getD_cons_zero, List.getD_cons_succ, List.filter_map, List.length_map,
    Function.comp, hfc]
  by_cases h : x = y
  · simp [h]
  · have hb : (x != y) = true := bne_iff_ne.mpr h
    simp [h, hb, Nat.add_comm]

/-- On equal-length digests the zip-based count of the source is exactly the
count of differing character positions. -/
theorem hammChar_eq_hammingChars : ∀ (s t : List Char), s.length = t.length →
    hammChar s t = hammingChars s t := by
  intro s
  induction s with
  | nil =>
    intro t h
    have ht : t = [] := List.eq_nil_of_length_eq_zero h.symm
    subst ht; rfl
  | cons x xs ih =>
    intro t h
    cases t with
    | nil => simp at h
    | cons y ys =>
      have hlen : xs.length = ys.length := by simpa using h
      rw [hammChar_cons, hammingChars_cons, ih ys hlen]

theorem mem_rotationDistancesHex {h1 h2 : FPstr} {x : ℕ} :
    x ∈ rotationDistancesHex h1 h2 ↔
      ∃ r1 ∈ h1.rotations, ∃ r2 ∈ h2.rotations, x = hammChar r1 r2 := by
  simp only [rotationDistancesHex, List.mem_flatMap, List.mem_map]
  constructor
  · rintro ⟨r1, hr1, r2, hr2, hx⟩
    exact ⟨r1, hr1, r2, hr2, hx.symm⟩
  · rintro ⟨r1, hr1, r2, hr2, hx⟩
    exact ⟨r1, hr1, r2, hr2, hx.symm⟩

theorem calculate_similarity_hex_eq (h1 h2 : FPstr) :
    calculate_similarity_hex h1 h2 = (simScaledHex h1 h2 : ℚ) / 10 := by
  unfold calculate_similarity_hex simScaledHex
  push_cast
  ring

theorem minRotationDistance_comm (a b : FP) :
    minRotationDistance a b = minRotationDistance b a := by
  unfold minRotationDistance
  apply pymin_congr
  intro x
  rw [mem_rotationDistances, mem_rotationDistances]
  constructor
  · rintro ⟨r1, hr1, r2, hr2, h⟩
    exact ⟨r2, hr2, r1, hr1, by rw [h, hamm_comm]⟩
  · rintro ⟨r2, hr2, r1, hr1, h⟩
    exact ⟨r1, hr1, r2, hr2, by rw [h, hamm_comm]⟩

theorem rotationComponent_zero_of_perm (a b : FP)
    (hperm : b.rotations.Perm a.rotations) (hne : a.rotations ≠ []) :
    minRotationDistance a b = 0 := by
  obtain ⟨r, hr⟩ := List.exists_mem_of_ne_nil _ hne
  have hrb : r ∈ b.rotations := hperm.mem_iff.mpr hr
  exact pymin_zero_of_mem
    (mem_rotationDistances.mpr ⟨r, hr, r, hrb, (hamm_self r).symm⟩)

theorem calculate_similarity_self (a : FP) : calculate_similarity a a = 0 := by
  have hrot : minRotationDistance a a = 0 := by
    by_cases h : a.rotations = []
    · unfold minRotationDistance rotationDistances
      rw [h]
      rfl
    · exact rotationComponent_zero_of_perm a a (List.Perm.refl _) h
  unfold calculate_similarity minFlipDistance
  rw [hamm_self a.phash, hamm_self a.dhash, hamm_self a.flipped_h,
    hamm_self a.flipped_v, hrot]
  norm_num

theorem run_entriesC4_2 : find_similar_images entriesC4 2 = [(z64, [pb, pc])] := by
  have hAB : ¬ (calculate_similarity fpA4 fpZ ≤ (2:ℚ)) := by
    rw [sim_le_iff]
    norm_num [show simScaled fpA4 fpZ = 40 from by decide]
  have hAC : ¬ (calculate_similarity fpA4 fpC4 ≤ (2:ℚ)) := by
    rw [sim_le_iff]
    norm_num [show simScaled fpA4 fpC4 = 60 from by decide]
  have hBA : ¬ (calculate_similarity fpZ fpA4 ≤ (2:ℚ)) := by
    rw [sim_le_iff]
    norm_num [show simScaled fpZ fpA4 = 40 from by decide]
  have hBC : calculate_similarity fpZ fpC4 ≤ (2:ℚ) := by
    rw [sim_le_iff]
    norm_num [show simScaled fpZ fpC4 = 20 from by decide]
  simp [find_similar_images, entriesC4, outerLoop, innerLoop, dictInsert,
    pa, pb, pc, hAB, hAC, hBA, hBC,
    show fpZ.phash = z64 from rfl, show fpA4.phash = seg64 0 10 from rfl,
    show fpC4.phash = seg64 10 15 from rfl]

theorem run_entriesC4_5 : find_similar_images entriesC4 5 = [(seg64 0 10, [pa, pb])] := by
  have hAB : calculate_similarity fpA4 fpZ ≤ (5:ℚ) := by
    rw [sim_le_iff]
    norm_num [show simScaled fpA4 fpZ = 40 from by decide]
  have hAC : ¬ (calculate_similarity fpA4 fpC4 ≤ (5:ℚ)) := by
    rw [sim_le_iff]
    norm_num [show simScaled fpA4 fpC4 = 60 from by decide]
  simp [find_similar_images, entriesC4, outerLoop, innerLoop, dictInsert,
    pa, pb, pc, hAB, hAC,
    show fpZ.phash = z64 from rfl, show fpA4.phash = seg64 0 10 from rfl,
    show fpC4.phash = seg64 10 15 from rfl]

theorem run_entriesX : find_similar_images entriesX 4 = [(z64, [pc, pd])] := by
  have hZZ : calculate_similarity fpZ fpZ ≤ (4:ℚ) := by
    rw [sim_le_iff]
    norm_num [show simScaled fpZ fpZ = 0 from by decide]
  have hZQ : ¬ (calculate_similarity fpZ fpQ ≤ (4:ℚ)) := by
    rw [sim_le_iff]
    norm_num [show simScaled fpZ fpQ = 384 from by decide]
  have hQQ : calculate_similarity fpQ fpQ ≤ (4:ℚ) := by
    rw [sim_le_iff]
    norm_num [show simScaled fpQ fpQ = 0 from by decide]
  simp [find_similar_images, entriesX, outerLoop, innerLoop, dictInsert,
    pa, pb, pc, pd, hZZ, hZQ, hQQ,
    show fpZ.phash = z64 from rfl, show fpQ.phash = z64 from rfl]

theorem run_entriesY : find_similar_images entriesY 4 =
    [(z64, [pa, pb]), (o64, [pc, pd])] := by
  have hZZ : calculate_similarity fpZ fpZ ≤ (4:ℚ) := by
    rw [sim_le_iff]
    norm_num [show simScaled fpZ fpZ = 0 from by decide]
  have hZQ : ¬ (calculate_similarity fpZ fpQ2 ≤ (4:ℚ)) := by
    rw [sim_le_iff]
    norm_num [show simScaled fpZ fpQ2 = 640 from by decide]
  have hQQ : calculate_similarity fpQ2 fpQ2 ≤ (4:ℚ) := by
    rw [sim_le_iff]
    norm_num [show simScaled fpQ2 fpQ2 = 0 from by decide]
  simp [find_similar_images, entriesY, outerLoop, innerLoop, dictInsert,
    pa, pb, pc, pd, hZZ, hZQ, hQQ, show z64 ≠ o64 from by decide,
    show fpZ.phash = z64 from rfl, show fpQ2.phash = o64 from rfl]

theorem deleteLoop_spec (removeOk : ImgPath → Bool) : ∀ l : List ImgPath,
    deleteLoop removeOk l = (l, l.filter (fun p => !(removeOk p))) := by
  intro l
  induction l with
  | nil => rfl
  | cons p rest ih =>
    simp only [deleteLoop, ih, List.filter_cons]
    by_cases h : removeOk p <;> simp [h]

theorem updatedGroups_len (gs : List (List Bool × List ImgPath)) :
    ∀ g ∈ updatedGroups gs, g.2.length = 1 := by
  intro g hg
  unfold updatedGroups at hg
  obtain ⟨g0, hg0, rfl⟩ := List.mem_map.mp hg
  have hne := (List.mem_filter.mp hg0).2
  have hpos : 0 < g0.2.length := by
    cases h : g0.2 with
    | nil => rw [h] at hne; simp at hne
    | cons x xs => simp [h]
  simp [List.length_take]
  omega

theorem newGroups_nil (gs : List (List Bool × List ImgPath)) :
    (updatedGroups gs).filter (fun g => decide (1 < g.2.length)) = [] := by
  rw [List.filter_eq_nil_iff]
  intro g hg
  have := updatedGroups_len gs g hg
  simp [this]

theorem scanAux_dict (hashOf : ImgPath → Option FP) (cSig : ℕ → Bool) (total : ℕ) :
    ∀ (L : List ImgPath) (i barValue : ℕ) (acc : List (ImgPath × FP)),
      (scanAux hashOf cSig total L i barValue acc).1 =
        acc ++ L.filterMap (fun f => (hashOf f).map (fun h => (f, h))) := by
  intro L
  induction L with
  | nil => intro i b acc; simp [scanAux]
  | cons f rest ih =>
    intro i b acc
    rw [scanAux]
    cases h : hashOf f with
    | some fp => simp [h, ih, List.filterMap_cons]
    | none => simp [h, ih, List.filterMap_cons]

/-- Claim C2, amended (corrected): the per-field distance is the Hamming
distance counted over differing character positions of the two equal-length
16-character hexadecimal digests that the program stores (nibble
granularity — not over bit positions of the underlying 64-bit strings, see
the counterexample), and the returned value equals
`0.4 * H(perceptual) + 0.3 * H(difference) + 0.2 * rotation_component +
0.1 * flip_component`, where the rotation component is the minimum digest
distance over all 16 orientation-hash pairs (attained by one of them and a
lower bound of all of them) and the flip component is the minimum of the
horizontal-flip and vertical-flip distances. -/
theorem c2_weighted_distance_hex (a b : FPstr) (ha : wellFormedFPhex a)
    (hb : wellFormedFPhex b) :
    calculate_similarity_hex a b =
      0.4 * (hammingChars a.phash b.phash : ℚ) + 0.3 * (hammingChars a.dhash b.dhash : ℚ)
        + 0.2 * (minRotationDistanceHex a b : ℚ)
        + 0.1 * (min (hammingChars a.flipped_h b.flipped_h)
            (hammingChars a.flipped_v b.flipped_v) : ℚ)
      ∧ (∃ i j : Fin 4, minRotationDistanceHex a b =
            hammingChars (a.rotations.getD i.1 []) (b.rotations.getD j.1 []))
      ∧ (∀ i j : Fin 4, minRotationDistanceHex a b ≤
            hammingChars (a.rotations.getD i.1 []) (b.rotations.getD j.1 [])) := by
  obtain ⟨hap, had, hafh, hafv, harl, hari⟩ := ha
  obtain ⟨hbp, hbd, hbfh, hbfv, hbrl, hbri⟩ := hb
  have ha4 : a.rotations ≠ [] := by
    intro h; rw [h] at harl; simp at harl
  have hb4 : b.rotations ≠ [] := by
    intro h; rw [h] at hbrl; simp at hbrl
  refine ⟨?_, ?_, ?_⟩
  · have e1 : hammChar a.phash b.phash = hammingChars a.phash b.phash :=
      hammChar_eq_hammingChars _ _ (by rw [hap, hbp])
    have e2 : hammChar a.dhash b.dhash = hammingChars a.dhash b.dhash :=
      hammChar_eq_hammingChars _ _ (by rw [had, hbd])
    have e3 : hammChar a.flipped_h b.flipped_h = hammingChars a.flipped_h b.flipped_h :=
      hammChar_eq_hammingChars _ _ (by rw [hafh, hbfh])
    have e4 : hammChar a.flipped_v b.flipped_v = hammingChars a.flipped_v b.flipped_v :=
      hammChar_eq_hammingChars _ _ (by rw [hafv, hbfv])
    simp only [calculate_similarity_hex, minFlipDistanceHex, e1, e2, e3, e4]
    rw [Nat.cast_min]
  · have hne : rotationDistancesHex a b ≠ [] := by
      obtain ⟨r1, hr1⟩ := List.exists_mem_of_ne_nil _ ha4
      obtain ⟨r2, hr2⟩ := List.exists_mem_of_ne_nil _ hb4
      intro hnil
      have hm : hammChar r1 r2 ∈ rotationDistancesHex a b :=
        mem_rotationDistancesHex.mpr ⟨r1, hr1, r2, hr2, rfl⟩
      rw [hnil] at hm
      cases hm
    have hmem := pymin_mem _ hne
    obtain ⟨r1, hr1, r2, hr2, heq⟩ := mem_rotationDistancesHex.mp hmem
    obtain ⟨n1, hget1⟩ := List.mem_iff_get.mp hr1
    obtain ⟨n2, hget2⟩ := List.mem_iff_get.mp hr2
    refine ⟨⟨n1.1, by rw [← harl]; exact n1.2⟩, ⟨n2.1, by rw [← hbrl]; exact n2.2⟩, ?_⟩
    have hg1 : a.rotations.getD n1.1 [] = r1 := by
      rw [List.getD_eq_getElem _ _ n1.2, ← List.get_eq_getElem, hget1]
    have hg2 : b.rotations.getD n2.1 [] = r2 := by
      rw [List.getD_eq_getElem _ _ n2.2, ← List.get_eq_getElem, hget2]
    rw [hg1, hg2, ← hammChar_eq_hammingChars r1 r2 (by rw [hari r1 hr1, hbri r2 hr2])]
    exact heq
  · intro i j
    have hi : (i.1 : ℕ) < a.rotations.length := by rw [harl]; exact i.2
    have hj : (j.1 : ℕ) < b.rotations.length := by rw [hbrl]; exact j.2
    have hg1 : a.rotations.getD i.1 [] ∈ a.rotations := by
      rw [List.getD_eq_getElem _ _ hi]
      exact List.getElem_mem hi
    have hg2 : b.rotations.getD j.1 [] ∈ b.rotations := by
      rw [List.getD_eq_getElem _ _ hj]
      exact List.getElem_mem hj
    have hm : hammChar (a.rotations.getD i.1 []) (b.rotations.getD j.1 []) ∈
        rotationDistancesHex a b :=
      mem_rotationDistancesHex.mpr ⟨_, hg1, _, hg2, rfl⟩
    have hle := pymin_le _ _ hm
    rw [hammChar_eq_hammingChars _ _ (by rw [hari _ hg1, hbri _ hg2])] at hle
    exact hle

/-- Witness for the amended C2 theorem: the theorem applied to the stored
digest of the all-zero hashes. -/
theorem c2_weighted_distance_hex_witness :
    calculate_similarity_hex fpHexA fpHexA =
      0.4 * (hammingChars fpHexA.phash fpHexA.phash : ℚ)
        + 0.3 * (hammingChars fpHexA.dhash fpHexA.dhash : ℚ)
        + 0.2 * (minRotationDistanceHex fpHexA fpHexA : ℚ)
        + 0.1 * (min (hammingChars fpHexA.flipped_h fpHexA.flipped_h)
            (hammingChars fpHexA.flipped_v fpHexA.flipped_v) : ℚ)
      ∧ (∃ i j : Fin 4, minRotationDistanceHex fpHexA fpHexA =
            hammingChars (fpHexA.rotations.getD i.1 []) (fpHexA.rotations.getD j.1 []))
      ∧ (∀ i j : Fin 4, minRotationDistanceHex fpHexA fpHexA ≤
            hammingChars (fpHexA.rotations.getD i.1 []) (fpHexA.rotations.getD j.1 [])) :=
  c2_weighted_distance_hex fpHexA fpHexA (by decide) (by decide)

/-- Counterexample to C2 as stated: the stored digests of two 64-bit
strings that differ in exactly 2 bit positions (bits 2 and 3) differ in
exactly 1 character position, and with all other fields equal the program
returns `0.4 * 1 = 0.4` — not `0.4 * 2 = 0.8` as the bit-position reading
of the claim demands.  The per-field distance is counted over hex-digit
positions of the 16-character digests, not over bit positions of the
64-bit strings. -/
theorem c2_bit_vs_char_cex :
    z64.length = 64 ∧ (seg64 2 4).length = 64
      ∧ (hexStr z64).length = 16 ∧ (hexStr (seg64 2 4)).length = 16
      ∧ hammingBits z64 (seg64 2 4) = 2
      ∧ hammChar (hexStr z64) (hexStr (seg64 2 4)) = 1
      ∧ calculate_similarity_hex fpHexA fpHexB = 0.4
      ∧ (0.4 : ℚ) ≠ 0.4 * (hammingBits z64 (seg64 2 4) : ℚ) := by
  refine ⟨by decide, by decide, by decide, by decide, by decide, by decide, ?_, ?_⟩
  · rw [calculate_similarity_hex_eq,
      show simScaledHex fpHexA fpHexB = 4 from by decide]
    norm_num
  · norm_num [show hammingBits z64 (seg64 2 4) = 2 from by decide]

/-- Claim C8 (confirmed): the weighted distance is symmetric in its two
fingerprint arguments. -/
theorem c8_symmetry (a b : FP) :
    calculate_similarity a b = calculate_similarity b a := by
  unfold calculate_similarity minFlipDistance
  rw [hamm_comm a.phash, hamm_comm a.dhash, hamm_comm a.flipped_h,
    hamm_comm a.flipped_v, minRotationDistance_comm]

/-- Claim C6, amended (corrected): the self-distance of every fingerprint is
zero, and when the orientation hashes of one fingerprint are a permutation (for
example the cyclic shift produced by a 90-degree rotated copy) of those of
the other, the rotation component is zero — but, contrary to the claim, the
total weighted distance of a rotated copy need not be zero, because the
perceptual and difference hashes of a rotated image are not constrained. -/
theorem c6_zero_distance :
    (∀ a : FP, calculate_similarity a a = 0) ∧
      (∀ a b : FP, b.rotations.Perm a.rotations → a.rotations ≠ [] →
        minRotationDistance a b = 0) :=
  ⟨calculate_similarity_self, rotationComponent_zero_of_perm⟩

/-- Witness for C6: the amended theorem applied to the all-zero fingerprint. -/
theorem c6_zero_distance_witness :
    calculate_similarity fpZ fpZ = 0 ∧ minRotationDistance fpZ fpZ = 0 :=
  ⟨c6_zero_distance.1 fpZ, c6_zero_distance.2 fpZ fpZ (List.Perm.refl _) (by decide)⟩

/-- Counterexample to C6 as stated: a fingerprint extracted from a
90-degree rotated copy of the same image (concrete hash collaborators
`exOps`; the rotated copy has exactly the same orientation hashes) is at
total weighted distance `0.4`, not `0`, because the perceptual hash of the
rotated image differs in one bit. -/
theorem c6_rotated_copy_cex :
    calculate_similarity (calculate_image_hash exOps 0)
        (calculate_image_hash exOps (exOps.rotate 0 90)) = 0.4
      ∧ (calculate_image_hash exOps (exOps.rotate 0 90)).rotations =
          (calculate_image_hash exOps 0).rotations
      ∧ (0.4 : ℚ) ≠ 0 := by
  refine ⟨?_, by decide, by norm_num⟩
  rw [calculate_similarity_eq_simScaled,
    show simScaled (calculate_image_hash exOps 0)
      (calculate_image_hash exOps (exOps.rotate 0 90)) = 4 from by decide]
  norm_num

/-- Claim C7 (confirmed): on entries with pairwise-distinct paths (the keys
of the Python dict), the clustering loop of the code produces exactly the
clustering described by the specification: assigned paths are skipped, each
unassigned representative gathers every other unassigned path within the
threshold in iteration order, and a group is emitted, keyed by the
perceptual hash of the representative, with the representative first, only when
it has more than one member. -/
theorem c7_cluster_matches_spec (entries : List (ImgPath × FP)) (t : ℚ)
    (hnd : (entries.map Prod.fst).Nodup) :
    find_similar_images entries t = specCluster entries t :=
  outerLoop_eq_specAux entries t hnd entries [] [] [] (fun _ => Iff.rfl)

/-- Witness for C7: the equivalence applied to a concrete three-image
collection. -/
theorem c7_cluster_matches_spec_witness :
    find_similar_images entriesC4 4 = specCluster entriesC4 4 :=
  c7_cluster_matches_spec entriesC4 4 (by decide)

/-- Claim C10 (confirmed): on `entriesX` two similarity groups are
discovered — `[a, b]` first, then `[c, d]` — but their representatives
share the perceptual hash `z64`, so the later group silently replaces the
earlier one and the output holds a single group with two member paths.  On
`entriesY`, identical except that the fingerprints of the second pair carry a
distinct perceptual hash, both groups appear. -/
theorem c10_key_collision :
    find_similar_images entriesX 4 = [(z64, [pc, pd])] ∧
      find_similar_images entriesY 4 = [(z64, [pa, pb]), (o64, [pc, pd])] :=
  ⟨run_entriesX, run_entriesY⟩

/-- Claim C4, amended (corrected): clustering at a smaller threshold is not
in general a refinement of clustering at a larger one (see the
counterexample); what does hold is monotonicity for the first
representative: for the first entry of the iteration order, every path its
candidate group gathers at threshold `t1 ≤ t2` is also gathered at `t2`
(the `t1` group is a sublist of the `t2` group). -/
theorem c4_first_group_monotone (entries : List (ImgPath × FP)) (p1 : ImgPath)
    (h1 : FP) (t1 t2 : ℚ) (hhead : entries.head? = some (p1, h1))
    (hnd : (entries.map Prod.fst).Nodup) (ht : t1 ≤ t2) :
    ((innerLoop p1 h1 t1 entries [p1] []).1).Sublist
      ((innerLoop p1 h1 t2 entries [p1] []).1) := by
  rw [innerLoop_eq p1 h1 t1 entries [p1] [] hnd,
    innerLoop_eq p1 h1 t2 entries [p1] [] hnd]
  apply List.Sublist.append_left
  apply List.Sublist.map
  apply List.monotone_filter_right
  intro e he
  simp only [innerCond, Bool.and_eq_true, decide_eq_true_eq] at he ⊢
  exact ⟨he.1, he.2.trans ht⟩

/-- Witness for the amended C4 theorem: the group of the first representative at
threshold 2 is a sublist of its group at threshold 5 on the concrete
three-image collection. -/
theorem c4_first_group_monotone_witness :
    ((innerLoop pa fpA4 2 entriesC4 [pa] []).1).Sublist
      ((innerLoop pa fpA4 5 entriesC4 [pa] []).1) :=
  c4_first_group_monotone entriesC4 pa fpA4 2 5 rfl (by decide) (by norm_num)

/-- Counterexample to C4 as stated: on `entriesC4` (pairwise distances
`d(a,b) = 4`, `d(b,c) = 2`, `d(a,c) = 6`) with thresholds `2 < 5`, the
paths `b` and `c` are grouped together at threshold 2 but not at threshold
5, where the earlier representative `a` absorbs `b` first — so the
clustering at the smaller threshold is not a refinement of the clustering
at the larger one. -/
theorem c4_monotonicity_cex :
    (2 : ℚ) < 5 ∧ sameGroup (find_similar_images entriesC4 2) pb pc = true
      ∧ sameGroup (find_similar_images entriesC4 5) pb pc = false := by
  refine ⟨by norm_num, ?_, ?_⟩
  · rw [run_entriesC4_2]
    decide
  · rw [run_entriesC4_5]
    decide

/-- Claim C1, amended (corrected): a confirmed `delete_all_selected` with a
non-empty collection attempts file removal for exactly the non-first
members of every group — the default selection — independently of the
checkbox selection, and independently of which removals fail: a failure is
logged (collected) and does not abort the batch, so every collected path is
still attempted. -/
theorem c1_delete_attempts (v : ImageViewer) (removeOk : ImgPath → Bool)
    (h : toDelete v.similar_groups ≠ []) :
    (delete_all_selected v removeOk).attempted = toDelete v.similar_groups ∧
      (delete_all_selected v removeOk).failures =
        (toDelete v.similar_groups).filter (fun p => !(removeOk p)) := by
  have hne : (toDelete v.similar_groups).isEmpty = false := by
    simp [List.isEmpty_iff, h]
  simp only [delete_all_selected, hne, deleteLoop_spec, Bool.false_eq_true, if_false]
  split <;> exact ⟨rfl, rfl⟩

/-- Witness for the amended C1 theorem: on the concrete two-image session,
with every removal failing, every group tail is attempted and logged. -/
theorem c1_delete_attempts_witness :
    (delete_all_selected vA (fun _ => false)).attempted = toDelete vA.similar_groups ∧
      (delete_all_selected vA (fun _ => false)).failures =
        (toDelete vA.similar_groups).filter (fun p => !((fun _ => false) p)) :=
  c1_delete_attempts vA (fun _ => false) (by decide)

/-- Counterexample to C1 as stated: in session `vA` the operator has
unchecked every box, so the current selection set is empty, yet
`delete_all_selected` still attempts the removal of `b` — a path outside
the selection set. -/
theorem c1_selection_ignored_cex :
    selectedPaths vA = [] ∧
      (delete_all_selected vA (fun _ => true)).attempted = [pb] := by
  constructor <;> decide

/-- Claim C3, amended (corrected): after a confirmed `delete_all_selected`
with a non-empty collection, every group is recomputed to keep exactly its
first member — independently of the checkbox selection and of removal
success — so every recomputed group has one member, and the subsequent
size filter drops them all: the surviving group list is always empty. -/
theorem c3_recompute_keeps_first (v : ImageViewer) (removeOk : ImgPath → Bool)
    (h : toDelete v.similar_groups ≠ []) :
    (∀ g ∈ updatedGroups v.similar_groups, g.2.length = 1) ∧
      (delete_all_selected v removeOk).groups_after = [] := by
  refine ⟨updatedGroups_len _, ?_⟩
  have hne : (toDelete v.similar_groups).isEmpty = false := by
    simp [List.isEmpty_iff, h]
  simp [delete_all_selected, hne, newGroups_nil]

/-- Witness for the amended C3 theorem on the concrete three-image session. -/
theorem c3_recompute_keeps_first_witness :
    (∀ g ∈ updatedGroups vB.similar_groups, g.2.length = 1) ∧
      (delete_all_selected vB (fun _ => true)).groups_after = [] :=
  c3_recompute_keeps_first vB (fun _ => true) (by decide)

/-- Counterexample to C3 as stated: in session `vC` the selection set is
non-empty but not the default — only the second image is checked — so
recomputing the three-member group by filtering out the selection would
leave it surviving with 2 = 3 - 1 members; instead the code leaves no
groups at all. -/
theorem c3_selection_filter_cex :
    selectedPaths vC = [pb] ∧ vC.similar_groups = [(z64, [pa, pb, pc])] ∧
      (delete_all_selected vC (fun _ => true)).groups_after = [] := by
  refine ⟨by decide, rfl, by decide⟩

/-- Claim C9 (confirmed): a confirmed `delete_all_selected` always ends in
the terminal state — the recomputed groups all consist of exactly their
first member, the size filter leaves nothing, and the branch that resets
pagination and re-materializes from the first page is never taken. -/
theorem c9_always_terminal (v : ImageViewer) (removeOk : ImgPath → Bool)
    (h : toDelete v.similar_groups ≠ []) :
    (delete_all_selected v removeOk).terminal = true ∧
      (delete_all_selected v removeOk).page_reset = false ∧
      (delete_all_selected v removeOk).groups_after = [] := by
  have hne : (toDelete v.similar_groups).isEmpty = false := by
    simp [List.isEmpty_iff, h]
  simp [delete_all_selected, hne, newGroups_nil]

/-- Witness for C9 on the concrete two-image session. -/
theorem c9_always_terminal_witness :
    (delete_all_selected vA (fun _ => true)).terminal = true ∧
      (delete_all_selected vA (fun _ => true)).page_reset = false ∧
      (delete_all_selected vA (fun _ => true)).groups_after = [] :=
  c9_always_terminal vA (fun _ => true) (by decide)

/-- Claim C5, amended (corrected): the scan loop never consults the
cancellation flag — for every cancellation signal the resulting fingerprint
collection is that of every readable file of the input list, in order;
cancellation only suppresses progress-bar updates and no per-file work is
rolled back (contrary to the claim, it does not stop the scheduling of
further files either). -/
theorem c5_scan_ignores_cancellation (hashOf : ImgPath → Option FP)
    (cSig : ℕ → Bool) (files : List ImgPath) :
    (scanPhase hashOf cSig files).1 =
      files.filterMap (fun f => (hashOf f).map (fun h => (f, h))) := by
  unfold scanPhase
  rw [scanAux_dict]
  rfl

/-- Counterexample to C5 as stated: the cancellation flag is observed set
at the second callback (after one file was dispatched), yet all three files
of the input list are fingerprinted. -/
theorem c5_cancellation_cex :
    (fun i => decide (1 ≤ i)) 1 = true ∧
      (scanPhase (fun _ => some fpZ) (fun i => decide (1 ≤ i)) filesEx).1 =
        [(pf1, fpZ), (pf2, fpZ), (pf3, fpZ)] := by
  constructor <;> decide
